import Mathlib

/-!
# Verification of near-mcp utility logic

Shallow embedding of the original logic of the `near-mcp` repository:

* `mapSemaphore` (src/utils.ts) — the bounded-concurrency promise mapper,
  embedded as a deterministic interpreter parameterised by an event-loop
  schedule.
* `toReadableNumber` / `refFinanceGetEstimate` (src/services.ts) — the
  constant-product swap estimate with its BigInt string plumbing.
* `parsePool` (src/utils.ts, current revision) — wire-format pool flattening.
* `NearToken` (src/utils.ts) — the yoctoNEAR token amount value type.
* `getNetworkFromAccountId` (src/services.ts) — account-id suffix dispatch.

JavaScript promise semantics are modelled operationally: the host runtime is
single threaded, settlements of in-flight promises are processed only while
the `mapSemaphore` loop is suspended at an `await`, and which promises settle
during one suspension (and in which order) is chosen by a *schedule*.  One
schedule entry is the ordered batch of settlements processed during one
`await Promise.race(promises)` suspension; the race is decided by the first
settlement of the batch, but every settlement of the batch still runs its
`.then`/`.finally` reactions (push the result, splice the promise out)
before the loop resumes.
-/

namespace NearMcp

/-- The repository's `Result<T, E>` with `E = Error` carrying a message
(src/utils.ts: `type Result<T, E> = { ok: true; value: T } | { ok: false; error: E }`). -/
inductive MResult (T : Type) where
  | ok (value : T)
  | err (error : String)
  deriving DecidableEq, Repr

section MapSemaphore

variable {T R E : Type}

/-- Settle the in-flight promise at position `k % length`: return the settled
element together with the remaining in-flight list (the `.finally` splice).
`none` only when nothing is in flight. -/
def extract (l : List T) (k : Nat) : Option (T × List T) :=
  match l with
  | [] => none
  | a :: rest =>
    let i := k % (a :: rest).length
    some ((a :: rest).getD i a, (a :: rest).eraseIdx i)

/-- Process the settlements of one batch *after* the race has already been
decided: each settled promise is spliced out of the in-flight list, a
fulfilled transform pushes its value onto `results`, and a rejected transform
is only spliced (its rejection is ignored because the pending
`Promise.race` has already resolved — nothing else observes it). -/
def settleMore (f : T → Except E R) : List Nat → List T × List R → List T × List R
  | [], st => st
  | k :: ks, (inF, acc) =>
    match extract inF k with
    | none => settleMore f ks (inF, acc)
    | some (t, rest) =>
      match f t with
      | Except.error _ => settleMore f ks (rest, acc)
      | Except.ok v => settleMore f ks (rest, acc ++ [v])

/-- One `await Promise.race(promises)` suspension.  The first settlement of
the batch decides the race: a rejection makes the `await` throw and the whole
`mapSemaphore` promise reject; a fulfilment pushes its result and the loop
will resume after the rest of the batch (`settleMore`) has been processed. -/
def raceStep (f : T → Except E R) (entry : List Nat) (st : List T × List R) :
    Except E (List T × List R) :=
  match extract st.1 (entry.headD 0) with
  | none => Except.ok st
  | some (t, rest) =>
    match f t with
    | Except.error e => Except.error e
    | Except.ok v => Except.ok (settleMore f entry.tail (rest, st.2 ++ [v]))

/-- The `for (const item of items)` loop of `mapSemaphore`
(src/utils.ts lines 16–26): start the next transform (push its promise),
and whenever `promises.length >= concurrency` suspend at
`await Promise.race(promises)`, consuming one schedule entry.
The final component instruments the run with the in-flight count observed
right after each push — the only points where the count increases. -/
def mapSemLoop (f : T → Except E R) (N : Nat) :
    List T → List (List Nat) → List T → List R → List Nat →
    Except E (List T × List R) × List Nat
  | [], _sched, inF, acc, tr => (Except.ok (inF, acc), tr)
  | t :: ts, sched, inF, acc, tr =>
    let inF2 := inF ++ [t]
    let tr2 := tr ++ [inF2.length]
    if N ≤ inF2.length then
      match raceStep f (sched.headD []) (inF2, acc) with
      | Except.error e => (Except.error e, tr2)
      | Except.ok st => mapSemLoop f N ts sched.tail st.1 st.2 tr2
    else
      mapSemLoop f N ts sched inF2 acc tr2

/-- The trailing `await Promise.all(promises)`: the remaining in-flight
promises settle one at a time in schedule order; any rejection rejects the
`Promise.all` (and hence `mapSemaphore`), fulfilments push their results in
settlement order.  Fuel is the number of remaining promises. -/
def allSettle (f : T → Except E R) : Nat → List Nat → List T → List R → Except E (List R)
  | 0, _, _, acc => Except.ok acc
  | fuel + 1, picks, inF, acc =>
    match extract inF (picks.headD 0) with
    | none => Except.ok acc
    | some (t, rest) =>
      match f t with
      | Except.error e => Except.error e
      | Except.ok v => allSettle f fuel picks.tail rest (acc ++ [v])

/-- `mapSemaphore(items, concurrency, f)` (src/utils.ts lines 9–29) under the
event-loop schedule `sched` (one ordered settlement batch per
`await Promise.race`) and `finalPicks` (settlement order during the final
`await Promise.all`). -/
def mapSemaphore (f : T → Except E R) (N : Nat) (items : List T)
    (sched : List (List Nat)) (finalPicks : List Nat) : Except E (List R) :=
  match (mapSemLoop f N items sched [] [] []).1 with
  | Except.error e => Except.error e
  | Except.ok (inF, acc) => allSettle f inF.length finalPicks inF acc

/-- The instrumented in-flight counts of a `mapSemaphore` run: the number of
simultaneously unresolved transform calls right after each transform is
started (the count only ever increases at those points). -/
def mapSemaphoreTrace (f : T → Except E R) (N : Nat) (items : List T)
    (sched : List (List Nat)) : List Nat :=
  (mapSemLoop f N items sched [] [] []).2

end MapSemaphore

section Strings

/-- `padStart(n, c)` on a JS string, over `List Char`. -/
def padStart (n : Nat) (c : Char) (l : List Char) : List Char :=
  List.replicate (n - l.length) c ++ l

/-- `.replace(/\.?0+$/, '')` (src/services.ts line 255): drop the maximal
trailing run of `'0'` characters together with a `'.'` immediately preceding
that run; a string not ending in `'0'` is unchanged (the regex is anchored at
the end, and a leftmost match of `\.?0+$` is exactly that region). -/
def stripTrailingZeros (s : List Char) : List Char :=
  let r := s.reverse
  let k := (r.takeWhile (fun c => c = '0')).length
  if k = 0 then s
  else
    let r2 := r.drop k
    (match r2 with
     | '.' :: r3 => r3
     | _ => r2).reverse

/-- `toReadableNumber` (src/services.ts lines 246–256).  JS `substring` clamps
negative indices to `0`, which truncated `Nat` subtraction reproduces; the
`|| '0'` fallback fires exactly on the empty string. -/
def toReadableNumber (decimals : Nat) (number : List Char) : List Char :=
  if decimals = 0 then number
  else
    let whole := number.take (number.length - decimals)
    let wholeStr := if whole.isEmpty then ['0'] else whole
    let fraction := (padStart decimals '0' (number.drop (number.length - decimals))).take decimals
    stripTrailingZeros (wholeStr ++ '.' :: fraction)

/-- Value of a nonempty all-decimal-digit string. -/
def digitsToNat (l : List Char) : Option Nat :=
  if l ≠ [] ∧ l.all Char.isDigit then
    some (l.foldl (fun acc c => 10 * acc + (c.toNat - '0'.toNat)) 0)
  else none

/-- JS `BigInt(string)` on decimal literals: surrounding whitespace is
trimmed, the empty string is `0n`, an optional single sign precedes a
nonempty digit run; anything else throws (`none`).  (The `0x`/`0o`/`0b`
prefixes accepted by JS never occur in this codebase's inputs and are
modelled as failures.) -/
def parseBigInt (s : List Char) : Option Int :=
  let t := ((s.dropWhile (fun c => c = ' ')).reverse.dropWhile (fun c => c = ' ')).reverse
  match t with
  | [] => some 0
  | '+' :: rest => (digitsToNat rest).map (fun n => (n : Int))
  | '-' :: rest => (digitsToNat rest).map (fun n => -(n : Int))
  | _ => (digitsToNat t).map (fun n => (n : Int))

end Strings

section NearTokenModel

/-- `NearToken` (src/utils.ts lines 408–443): an immutable wrapper around a
yoctoNEAR bigint. -/
structure NearToken where
  yoctoNear : Int
  deriving DecidableEq, Repr

/-- The `NearToken` constructor: throws (`err`) when the amount is negative,
otherwise stores the bigint unchanged. -/
def NearToken.make (yoctoNear : Int) : MResult NearToken :=
  if yoctoNear < 0 then MResult.err "NearToken amount cannot be negative"
  else MResult.ok ⟨yoctoNear⟩

/-- `as_yocto_near()`: returns the stored bigint unchanged. -/
def NearToken.as_yocto_near (t : NearToken) : Int :=
  t.yoctoNear

/-- The `string | bigint` argument of `parse_yocto_near`. -/
inductive YoctoInput where
  | str (s : List Char)
  | big (b : Int)

/-- `BigInt(yoctoNear)` on a `string | bigint` argument: a bigint converts to
itself, a string is parsed as a decimal bigint literal. -/
def jsBigIntOf : YoctoInput → Option Int
  | YoctoInput.big b => some b
  | YoctoInput.str s => parseBigInt s

/-- `NearToken.parse_yocto_near` (src/utils.ts lines 426–433): `BigInt`
conversion followed by the constructor, with any thrown error (unparsable
string or negative amount) re-thrown as `Invalid yoctoNEAR amount`. -/
def NearToken.parse_yocto_near (yoctoNear : YoctoInput) : MResult NearToken :=
  match jsBigIntOf yoctoNear with
  | none => MResult.err "Invalid yoctoNEAR amount"
  | some n =>
    match NearToken.make n with
    | MResult.ok t => MResult.ok t
    | MResult.err _ => MResult.err "Invalid yoctoNEAR amount"

end NearTokenModel

section RefFinance

/-- The fields of Ref Finance token metadata that the estimate reads
(`tokenIn.id`, `tokenIn.metadata.decimals`). -/
structure RefTokenMetadata where
  id : List Char
  decimals : Nat

/-- The fields of a parsed `Pool` that the estimate reads: the
asset-id-to-reserve record and the fee in basis points. -/
structure RefPool where
  supplies : List (List Char × List Char)
  fee : Int

/-- JS record lookup `obj[key]` on an association list (one binding per key;
`parsePool` builds its records that way). -/
def jsRecordGet {V : Type} : List (List Char × V) → List Char → Option V
  | [], _ => none
  | p :: rest, k => if p.1 = k then some p.2 else jsRecordGet rest k

/-- `FEE_DIVISOR` (src/services.ts line 258). -/
def FEE_DIVISOR : Int := 10000

/-- `refFinanceGetEstimate` (src/services.ts lines 259–307).  A missing
supply entry reaches `toReadableNumber`'s `number = '0'` default; each
`BigInt(...)` conversion that throws is caught by the surrounding
`try`/`catch` (`err`); JS bigint division truncates toward zero
(`Int.tdiv`).  The source stringifies the estimate at the very end; the
model returns the bigint itself. -/
def refFinanceGetEstimate (tokenIn tokenOut : RefTokenMetadata) (pool : RefPool)
    (amountIn : List Char) : MResult Int :=
  match parseBigInt amountIn with
  | none => MResult.err "caught exception"
  | some amountInBigInt =>
    let amount_with_fee := amountInBigInt * (FEE_DIVISOR - pool.fee)
    match parseBigInt (toReadableNumber tokenIn.decimals
        ((jsRecordGet pool.supplies tokenIn.id).getD ['0'])) with
    | none => MResult.err "caught exception"
    | some in_balance =>
      match parseBigInt (toReadableNumber tokenOut.decimals
          ((jsRecordGet pool.supplies tokenOut.id).getD ['0'])) with
      | none => MResult.err "caught exception"
      | some out_balance =>
        let numerator := amount_with_fee * out_balance
        let denominator := FEE_DIVISOR * in_balance + amount_with_fee
        if denominator = 0 then
          MResult.err "Division by zero in estimate calculation"
        else
          MResult.ok (Int.tdiv numerator denominator)

/-- `acc[key] = amount` on a JS record modelled as an association list:
update the binding in place if the key is present, otherwise append it. -/
def recAssign {V : Type} (m : List (List Char × V)) (k : List Char) (v : V) :
    List (List Char × V) :=
  if m.any (fun p => decide (p.1 = k)) then
    m.map (fun p => if p.1 = k then (k, v) else p)
  else m ++ [(k, v)]

/-- The `pool.amounts.reduce((acc, amount, i) => ...)` of `parsePool`
(current src/utils.ts lines 158–166): walk the amounts with their index,
assigning `acc[token_account_ids[i]] = amount` whenever index `i` has an
asset id. -/
def parsePoolSuppliesAux (ids : List (List Char)) :
    Nat → List (List Char) → List (List Char × List Char) → List (List Char × List Char)
  | _, [], acc => acc
  | i, amount :: rest, acc =>
    parsePoolSuppliesAux ids (i + 1) rest
      (match ids.get? i with
       | some id => recAssign acc id amount
       | none => acc)

/-- The `supplies` record built by `parsePool`. -/
def parsePoolSupplies (token_account_ids amounts : List (List Char)) :
    List (List Char × List Char) :=
  parsePoolSuppliesAux token_account_ids 0 amounts []

/-- The wire-format pool record (`PoolRPCView`) fields that `parsePool`
reads. -/
structure PoolRPCView where
  id : Int
  token_account_ids : List (List Char)
  amounts : List (List Char)
  total_fee : Int
  shares_total_supply : List Char
  tvl : Int
  token0_ref_price : List Char

/-- The `Pool` fields produced by `parsePool`. -/
structure ParsedPool where
  id : Int
  tokenIds : List (List Char)
  supplies : List (List Char × List Char)
  fee : Int
  shareSupply : List Char
  tvl : Int
  token0_ref_price : List Char

/-- `parsePool` (current src/utils.ts lines 155–172), without the optional
`id` override argument (the override only replaces the copied `pool.id`). -/
def parsePool (pool : PoolRPCView) : ParsedPool :=
  { id := pool.id
    tokenIds := pool.token_account_ids
    supplies := parsePoolSupplies pool.token_account_ids pool.amounts
    fee := pool.total_fee
    shareSupply := pool.shares_total_supply
    tvl := pool.tvl
    token0_ref_price := pool.token0_ref_price }

end RefFinance

section Network

/-- `getNetworkFromAccountId` (src/services.ts lines 57–65): dispatch on the
account-id suffix. -/
def getNetworkFromAccountId (accountId : List Char) : MResult (List Char) :=
  if List.isSuffixOf ['.', 'n', 'e', 'a', 'r'] accountId then
    MResult.ok ['m', 'a', 'i', 'n', 'n', 'e', 't']
  else if List.isSuffixOf ['.', 't', 'e', 's', 't', 'n', 'e', 't'] accountId then
    MResult.ok ['t', 'e', 's', 't', 'n', 'e', 't']
  else MResult.err "Invalid account id"

end Network

/-! ## Theorems -/

/-- The lowercase hexadecimal digit alphabet of implicit account ids. -/
def hexDigits : List Char := "0123456789abcdef".toList

/-- C10: `getNetworkFromAccountId` returns ok `mainnet` exactly for account
ids ending in `.near`, ok `testnet` exactly for those ending in `.testnet`,
and the `Invalid account id` failure for every other string; in particular a
64-character lowercase-hexadecimal implicit account id is rejected (that
failure is returned unchanged by the `import_from_file` handler, so importing
from a key file only succeeds for suffixed account names). -/
theorem getNetworkFromAccountId_spec (s : List Char) :
    (getNetworkFromAccountId s = MResult.ok ['m', 'a', 'i', 'n', 'n', 'e', 't']
      ↔ ['.', 'n', 'e', 'a', 'r'] <:+ s)
    ∧ (getNetworkFromAccountId s = MResult.ok ['t', 'e', 's', 't', 'n', 'e', 't']
      ↔ ['.', 't', 'e', 's', 't', 'n', 'e', 't'] <:+ s)
    ∧ ((¬ ['.', 'n', 'e', 'a', 'r'] <:+ s ∧ ¬ ['.', 't', 'e', 's', 't', 'n', 'e', 't'] <:+ s)
      ↔ getNetworkFromAccountId s = MResult.err "Invalid account id")
    ∧ (s.length = 64 → (∀ c ∈ s, c ∈ hexDigits) →
      getNetworkFromAccountId s = MResult.err "Invalid account id") := by
  have hdisj : ¬ (['.', 't', 'e', 's', 't', 'n', 'e', 't'] <:+ s
      ∧ ['.', 'n', 'e', 'a', 'r'] <:+ s) := by
    rintro ⟨ht, hn⟩
    have : ['.', 'n', 'e', 'a', 'r'] <:+ ['.', 't', 'e', 's', 't', 'n', 'e', 't'] :=
      List.suffix_of_suffix_length_le hn ht (by decide)
    exact absurd this (by decide)
  have hhex : (∀ c ∈ s, c ∈ hexDigits) → ¬ ['.', 'n', 'e', 'a', 'r'] <:+ s := by
    rintro hall ⟨u, hu⟩
    have : '.' ∈ s := by rw [← hu]; simp
    have := hall '.' this
    simp [hexDigits] at this
  have hhex2 : (∀ c ∈ s, c ∈ hexDigits) → ¬ ['.', 't', 'e', 's', 't', 'n', 'e', 't'] <:+ s := by
    rintro hall ⟨u, hu⟩
    have : '.' ∈ s := by rw [← hu]; simp
    have := hall '.' this
    simp [hexDigits] at this
  unfold getNetworkFromAccountId
  by_cases h1 : ['.', 'n', 'e', 'a', 'r'] <:+ s
  · rw [if_pos (List.isSuffixOf_iff_suffix.mpr h1)]
    refine ⟨by simp [h1], ?_, ?_, ?_⟩
    · constructor
      · intro h; simp at h
      · intro h2; exact absurd ⟨h2, h1⟩ hdisj
    · constructor
      · rintro ⟨hn, -⟩; exact absurd h1 hn
      · intro h; simp at h
    · intro _ hall; exact absurd h1 (hhex hall)
  · rw [if_neg (by simpa [List.isSuffixOf_iff_suffix] using h1)]
    by_cases h2 : ['.', 't', 'e', 's', 't', 'n', 'e', 't'] <:+ s
    · rw [if_pos (List.isSuffixOf_iff_suffix.mpr h2)]
      refine ⟨?_, by simp [h2], ?_, ?_⟩
      · constructor
        · intro h; simp at h
        · intro hn; exact absurd hn h1
      · constructor
        · rintro ⟨-, ht⟩; exact absurd h2 ht
        · intro h; simp at h
      · intro _ hall; exact absurd h2 (hhex2 hall)
    · rw [if_neg (by simpa [List.isSuffixOf_iff_suffix] using h2)]
      refine ⟨?_, ?_, ?_, fun _ _ => rfl⟩
      · constructor
        · intro h; simp at h
        · intro hn; exact absurd hn h1
      · constructor
        · intro h; simp at h
        · intro ht; exact absurd ht h2
      · exact iff_of_true ⟨h1, h2⟩ rfl

/-- Witness for C10 at a concrete implicit account id: sixty-four `'a'`
characters are rejected. -/
theorem getNetworkFromAccountId_spec_witness :
    getNetworkFromAccountId (List.replicate 64 'a') = MResult.err "Invalid account id" :=
  (getNetworkFromAccountId_spec (List.replicate 64 'a')).2.2.2 (by decide) (by decide)

/-- C7: parsing a non-negative minor-unit amount (as a bigint, or as any
decimal string denoting it) succeeds and `as_yocto_near` returns it exactly,
for arbitrarily large values. -/
theorem parse_yocto_near_roundtrip (v : Int) (hv : 0 ≤ v) :
    (∃ t, NearToken.parse_yocto_near (YoctoInput.big v) = MResult.ok t
      ∧ t.as_yocto_near = v)
    ∧ ∀ s : List Char, parseBigInt s = some v →
      ∃ t, NearToken.parse_yocto_near (YoctoInput.str s) = MResult.ok t
        ∧ t.as_yocto_near = v := by
  have hmk : NearToken.make v = MResult.ok ⟨v⟩ := by
    unfold NearToken.make
    rw [if_neg (not_lt.mpr hv)]
  constructor
  · exact ⟨⟨v⟩, by simp [NearToken.parse_yocto_near, jsBigIntOf, hmk], rfl⟩
  · intro s hs
    exact ⟨⟨v⟩, by simp [NearToken.parse_yocto_near, jsBigIntOf, hs, hmk], rfl⟩

/-- Witness for C7 at the 30-digit value `10^29`, exceeding 64-bit range. -/
theorem parse_yocto_near_roundtrip_witness :
    (0 : Int) ≤ 100000000000000000000000000000
    ∧ parseBigInt
        ['1', '0', '0', '0', '0', '0', '0', '0', '0', '0', '0', '0', '0', '0', '0',
          '0', '0', '0', '0', '0', '0', '0', '0', '0', '0', '0', '0', '0', '0', '0']
        = some 100000000000000000000000000000
    ∧ ∃ t, NearToken.parse_yocto_near (YoctoInput.str
        ['1', '0', '0', '0', '0', '0', '0', '0', '0', '0', '0', '0', '0', '0', '0',
          '0', '0', '0', '0', '0', '0', '0', '0', '0', '0', '0', '0', '0', '0', '0'])
        = MResult.ok t ∧ t.as_yocto_near = 100000000000000000000000000000 :=
  ⟨by decide, by decide,
    (parse_yocto_near_roundtrip 100000000000000000000000000000 (by decide)).2 _ (by decide)⟩

/-- C8: every construction path rejects negative minor-unit values — the
constructor throws, `parse_yocto_near` rethrows for both bigint and string
arguments — and a successful construction stores the given non-negative
value unchanged (no clamping). -/
theorem nearToken_negative_rejected :
    (∀ y : Int, y < 0 →
      NearToken.make y = MResult.err "NearToken amount cannot be negative"
      ∧ NearToken.parse_yocto_near (YoctoInput.big y)
          = MResult.err "Invalid yoctoNEAR amount"
      ∧ ∀ s : List Char, parseBigInt s = some y →
        NearToken.parse_yocto_near (YoctoInput.str s)
          = MResult.err "Invalid yoctoNEAR amount")
    ∧ ∀ (z : Int) (t : NearToken), NearToken.make z = MResult.ok t →
      t.yoctoNear = z ∧ 0 ≤ t.yoctoNear := by
  constructor
  · intro y hy
    have hmk : NearToken.make y = MResult.err "NearToken amount cannot be negative" := by
      unfold NearToken.make
      rw [if_pos hy]
    refine ⟨hmk, by simp [NearToken.parse_yocto_near, jsBigIntOf, hmk], ?_⟩
    intro s hs
    simp [NearToken.parse_yocto_near, jsBigIntOf, hs, hmk]
  · intro z t h
    unfold NearToken.make at h
    by_cases hz : z < 0
    · rw [if_pos hz] at h
      exact absurd h (by simp)
    · rw [if_neg hz] at h
      cases h
      exact ⟨rfl, not_lt.mp hz⟩

/-- Witness for C8 at `-1`, both as a bigint and as the string `"-1"`. -/
theorem nearToken_negative_rejected_witness :
    NearToken.make (-1) = MResult.err "NearToken amount cannot be negative"
    ∧ NearToken.parse_yocto_near (YoctoInput.str ['-', '1'])
        = MResult.err "Invalid yoctoNEAR amount" :=
  ⟨(nearToken_negative_rejected.1 (-1) (by decide)).1,
    (nearToken_negative_rejected.1 (-1) (by decide)).2.2 ['-', '1'] (by decide)⟩

/-- C4, counterexample to the claim as stated: with recorded reserves
`"0"` and `"2000"` (both parsing as non-negative integers, `r_in = 0`,
`r_out = 2000`), fee `30` and input amount `"0"`, `refFinanceGetEstimate`
does **not** return ok — the denominator `10000·0 + 0·9970` is zero and the
function returns the failure branch. -/
theorem refFinanceGetEstimate_not_always_ok :
    parseBigInt (toReadableNumber 0 ['0']) = some 0
    ∧ parseBigInt (toReadableNumber 0 ['2', '0', '0', '0']) = some 2000
    ∧ refFinanceGetEstimate ⟨['i', 'n'], 0⟩ ⟨['o', 'u', 't'], 0⟩
        ⟨[(['i', 'n'], ['0']), (['o', 'u', 't'], ['2', '0', '0', '0'])], 30⟩ ['0']
      = MResult.err "Division by zero in estimate calculation" :=
  ⟨by decide, by decide, by decide⟩

/-- C4, amended: whenever the input amount parses as a non-negative integer
`a`, both recorded reserves convert through `toReadableNumber` to strings
parsing as non-negative integers `r_in` and `r_out`, the fee lies in
`[0, 10000]` basis points, and the denominator `10000·r_in + a·(10000-f)` is
nonzero, the estimate is ok and equals
`floor(a·(10000-f)·r_out / (10000·r_in + a·(10000-f)))`, computed entirely in
integer arithmetic. -/
theorem refFinanceGetEstimate_formula (tokenIn tokenOut : RefTokenMetadata)
    (pool : RefPool) (amountIn : List Char) (a rIn rOut : Int)
    (ha : parseBigInt amountIn = some a) (ha0 : 0 ≤ a)
    (hin : parseBigInt (toReadableNumber tokenIn.decimals
      ((jsRecordGet pool.supplies tokenIn.id).getD ['0'])) = some rIn)
    (hin0 : 0 ≤ rIn)
    (hout : parseBigInt (toReadableNumber tokenOut.decimals
      ((jsRecordGet pool.supplies tokenOut.id).getD ['0'])) = some rOut)
    (hout0 : 0 ≤ rOut)
    (hfee0 : 0 ≤ pool.fee) (hfee : pool.fee ≤ 10000)
    (hden : 10000 * rIn + a * (10000 - pool.fee) ≠ 0) :
    refFinanceGetEstimate tokenIn tokenOut pool amountIn
      = MResult.ok (Int.fdiv (a * (10000 - pool.fee) * rOut)
          (10000 * rIn + a * (10000 - pool.fee))) := by
  have hnum : 0 ≤ a * (10000 - pool.fee) * rOut :=
    mul_nonneg (mul_nonneg ha0 (by omega)) hout0
  have hden0 : 0 ≤ 10000 * rIn + a * (10000 - pool.fee) := by
    have : 0 ≤ a * (10000 - pool.fee) := mul_nonneg ha0 (by omega)
    have : 0 ≤ 10000 * rIn := by positivity
    omega
  unfold refFinanceGetEstimate FEE_DIVISOR
  rw [ha, hin, hout]
  dsimp only
  rw [if_neg hden]
  rw [Int.tdiv_eq_ediv hnum hden0, Int.fdiv_eq_ediv _ hden0]

/-- Witness for C4's amended theorem at the spec's own example: reserves
`1000` / `2000`, fee `30` bps, amount `100`, yielding estimate `181`. -/
theorem refFinanceGetEstimate_formula_witness :
    refFinanceGetEstimate ⟨['i', 'n'], 0⟩ ⟨['o', 'u', 't'], 0⟩
        ⟨[(['i', 'n'], ['1', '0', '0', '0']), (['o', 'u', 't'], ['2', '0', '0', '0'])], 30⟩
        ['1', '0', '0']
      = MResult.ok 181 :=
  (refFinanceGetEstimate_formula ⟨['i', 'n'], 0⟩ ⟨['o', 'u', 't'], 0⟩
      ⟨[(['i', 'n'], ['1', '0', '0', '0']), (['o', 'u', 't'], ['2', '0', '0', '0'])], 30⟩
      ['1', '0', '0'] 100 1000 2000
      (by decide) (by decide) (by decide) (by decide) (by decide) (by decide)
      (by decide) (by decide) (by decide)).trans (by decide)

/-- C5, counterexample to the claim as stated: against a pool whose recorded
input-asset reserve is `"0"`, the positive input amount `"100"` (fee `30`)
does **not** yield a failure — the denominator `10000·0 + 100·9970` is
nonzero, and the function returns ok with the entire output reserve `2000`
as the estimate. -/
theorem refFinanceGetEstimate_zero_reserve_ok :
    jsRecordGet [(['i', 'n'], ['0']), (['o', 'u', 't'], ['2', '0', '0', '0'])] ['i', 'n']
      = some ['0']
    ∧ refFinanceGetEstimate ⟨['i', 'n'], 0⟩ ⟨['o', 'u', 't'], 0⟩
        ⟨[(['i', 'n'], ['0']), (['o', 'u', 't'], ['2', '0', '0', '0'])], 30⟩
        ['1', '0', '0']
      = MResult.ok 2000 :=
  ⟨by decide, by decide⟩

/-- C5, amended: when the input-asset reserve converts to `0`, the function
never throws a division exception and never produces a non-integer: it
returns the `Division by zero` failure exactly when `a·(10000-f) = 0`
(so in particular for amount `0`), and otherwise returns ok with the entire
output reserve `r_out` as the estimate. -/
theorem refFinanceGetEstimate_zero_reserve (tokenIn tokenOut : RefTokenMetadata)
    (pool : RefPool) (amountIn : List Char) (a rOut : Int)
    (ha : parseBigInt amountIn = some a)
    (hin : parseBigInt (toReadableNumber tokenIn.decimals
      ((jsRecordGet pool.supplies tokenIn.id).getD ['0'])) = some 0)
    (hout : parseBigInt (toReadableNumber tokenOut.decimals
      ((jsRecordGet pool.supplies tokenOut.id).getD ['0'])) = some rOut) :
    (a * (10000 - pool.fee) = 0 →
      refFinanceGetEstimate tokenIn tokenOut pool amountIn
        = MResult.err "Division by zero in estimate calculation")
    ∧ (a * (10000 - pool.fee) ≠ 0 →
      refFinanceGetEstimate tokenIn tokenOut pool amountIn = MResult.ok rOut) := by
  constructor
  · intro hz
    unfold refFinanceGetEstimate FEE_DIVISOR
    rw [ha, hin, hout]
    dsimp only
    rw [if_pos (by omega)]
  · intro hz
    unfold refFinanceGetEstimate FEE_DIVISOR
    rw [ha, hin, hout]
    dsimp only
    rw [if_neg (by omega)]
    congr 1
    have h1 : (10000 : Int) * 0 + a * (10000 - pool.fee) = (10000 - pool.fee) * a := by ring
    have h2 : a * (10000 - pool.fee) * rOut = (10000 - pool.fee) * (a * rOut) := by ring
    rw [h1, h2]
    have hza : (10000 - pool.fee) * a ≠ 0 := by
      intro h; exact hz (by rw [mul_comm] at h; exact h)
    have hzf : (10000 - pool.fee) ≠ 0 := fun h => hza (by rw [h, zero_mul])
    rw [mul_assoc] at h2
    calc Int.tdiv ((10000 - pool.fee) * (a * rOut)) ((10000 - pool.fee) * a)
        = Int.tdiv ((10000 - pool.fee) * a * rOut) ((10000 - pool.fee) * a) := by ring_nf
      _ = rOut := Int.mul_tdiv_cancel_left _ hza

/-- Witness for C5's amended theorem: input reserve `"0"`, output reserve
`"777"`, fee `10`, exercised at amount `"50"` (ok with `777`) and showing the
zero-amount failure condition. -/
theorem refFinanceGetEstimate_zero_reserve_witness :
    ((50 : Int) * (10000 - 10) ≠ 0
      ∧ refFinanceGetEstimate ⟨['i', 'n'], 2⟩ ⟨['o', 'u', 't'], 0⟩
          ⟨[(['i', 'n'], ['0']), (['o', 'u', 't'], ['7', '7', '7'])], 10⟩ ['5', '0']
        = MResult.ok 777) :=
  ⟨by decide,
    (refFinanceGetEstimate_zero_reserve ⟨['i', 'n'], 2⟩ ⟨['o', 'u', 't'], 0⟩
      ⟨[(['i', 'n'], ['0']), (['o', 'u', 't'], ['7', '7', '7'])], 10⟩ ['5', '0'] 50 777
      (by decide) (by decide) (by decide)).2 (by decide)⟩

/-- C2: the failure-propagation guarantee is violated by the code.  With two
items, concurrency `2`, a transform that fulfils item `0` and rejects item
`1`, and both promises settling during the same `await Promise.race`
suspension with the fulfilment processed first, the race resolves with the
fulfilment, the rejected promise's `.finally` splices it out of `promises`
before the loop resumes, and the final `await Promise.all` no longer
contains it — so `mapSemaphore` *fulfils*, with one result for two inputs,
silently dropping the rejection. -/
theorem mapSemaphore_drops_rejection :
    (fun t : Nat => if t = 0 then Except.ok 10 else Except.error "boom") 1
      = Except.error "boom"
    ∧ mapSemaphore (fun t : Nat => if t = 0 then Except.ok 10 else Except.error "boom")
        2 [0, 1] [[0, 1]] []
      = Except.ok [10] :=
  ⟨rfl, rfl⟩

section PoolSupplies

/-- `Option.orElse` (`<|>`) is associative. -/
theorem opt_orElse_assoc {α : Type} (a b c : Option α) :
    ((a <|> b) <|> c) = (a <|> (b <|> c)) := by
  cases a <;> simp

theorem jsRecordGet_assign_map {V : Type} (k : List Char) (v : V) :
    ∀ (m : List (List Char × V)) (q : List Char),
      jsRecordGet (m.map (fun p => if p.1 = k then (k, v) else p)) q
        = if q = k then
            (if m.any (fun p => decide (p.1 = k)) then some v else none)
          else jsRecordGet m q := by
  intro m
  induction m with
  | nil => intro q; simp [jsRecordGet]
  | cons p rest ih =>
    intro q
    rw [List.map_cons]
    rw [show jsRecordGet ((if p.1 = k then (k, v) else p) ::
        rest.map (fun p => if p.1 = k then (k, v) else p)) q
      = if (if p.1 = k then (k, v) else p).1 = q then some (if p.1 = k then (k, v) else p).2
        else jsRecordGet (rest.map (fun p => if p.1 = k then (k, v) else p)) q from rfl]
    rw [show jsRecordGet (p :: rest) q = if p.1 = q then some p.2 else jsRecordGet rest q
      from rfl]
    rw [List.any_cons]
    by_cases hp : p.1 = k
    · simp only [if_pos hp]
      by_cases hq : q = k
      · subst hq
        simp only [if_pos rfl]
        rw [show decide (p.1 = q) = true by simp [hp], Bool.true_or]
        simp
      · rw [if_neg (show ((k, v) : List Char × V).1 ≠ q from fun hh => hq hh.symm)]
        rw [ih q]
        simp only [if_neg hq]
        rw [if_neg (show p.1 ≠ q by rw [hp]; exact fun hh => hq hh.symm)]
    · simp only [if_neg hp]
      by_cases hq : q = k
      · simp only [if_pos hq]
        rw [show decide (p.1 = k) = false by simp [hp], Bool.false_or]
        rw [if_neg (show p.1 ≠ q from fun hh => hp (hh.trans hq))]
        rw [ih q]
        simp only [if_pos hq]
      · rw [ih q]
        simp only [if_neg hq]

theorem jsRecordGet_of_not_mem {V : Type} :
    ∀ (m : List (List Char × V)) (q : List Char),
      m.any (fun p => decide (p.1 = q)) = false → jsRecordGet m q = none := by
  intro m
  induction m with
  | nil => intro q _; rfl
  | cons p rest ih =>
    intro q h
    rw [List.any_cons] at h
    have h1 : p.1 ≠ q := by
      intro hh
      simp [hh] at h
    have h2 : rest.any (fun p => decide (p.1 = q)) = false := by
      rcases Bool.or_eq_false_iff.mp h with ⟨-, h2⟩
      exact h2
    show (if p.1 = q then some p.2 else jsRecordGet rest q) = none
    rw [if_neg h1, ih q h2]

theorem jsRecordGet_append {V : Type} :
    ∀ (m₁ m₂ : List (List Char × V)) (q : List Char),
      jsRecordGet (m₁ ++ m₂) q = (jsRecordGet m₁ q <|> jsRecordGet m₂ q) := by
  intro m₁
  induction m₁ with
  | nil => intro m₂ q; simp [jsRecordGet]
  | cons p rest ih =>
    intro m₂ q
    show (if p.1 = q then some p.2 else jsRecordGet (rest ++ m₂) q)
      = ((if p.1 = q then some p.2 else jsRecordGet rest q) <|> jsRecordGet m₂ q)
    by_cases hp : p.1 = q
    · rw [if_pos hp, if_pos hp]
      rfl
    · rw [if_neg hp, if_neg hp, ih]

/-- The record after `acc[k] = v` maps `k` to `v` and every other key to its
previous binding. -/
theorem jsRecordGet_recAssign {V : Type} (m : List (List Char × V)) (k : List Char)
    (v : V) (q : List Char) :
    jsRecordGet (recAssign m k v) q = if q = k then some v else jsRecordGet m q := by
  unfold recAssign
  by_cases hm : m.any (fun p => decide (p.1 = k)) = true
  · rw [if_pos hm, jsRecordGet_assign_map, hm]
    simp
  · rw [if_neg hm, jsRecordGet_append]
    by_cases hq : q = k
    · subst hq
      rw [jsRecordGet_of_not_mem m q (Bool.not_eq_true _ ▸ hm), if_pos rfl]
      simp [jsRecordGet]
    · rw [if_neg hq]
      show (jsRecordGet m q <|> if k = q then some v else none) = jsRecordGet m q
      rw [if_neg (fun hh => hq hh.symm)]
      cases jsRecordGet m q <;> rfl

/-- The value that the `parsePool` reduce, walking `amounts` from absolute
index `i` on, leaves bound to key `k`: the amount of the *last* index `j`
with `token_account_ids[j] = k`, if any. -/
def lastAssign (ids : List (List Char)) : Nat → List (List Char) → List Char → Option (List Char)
  | _, [], _ => none
  | i, amount :: rest, k =>
    (lastAssign ids (i + 1) rest k) <|> (if ids.get? i = some k then some amount else none)

theorem lastAssign_eq_none (ids : List (List Char)) :
    ∀ (amounts : List (List Char)) (s : Nat) (k : List Char),
      (∀ j, s ≤ j → ids.get? j ≠ some k) → lastAssign ids s amounts k = none := by
  intro amounts
  induction amounts with
  | nil => intro s k _; rfl
  | cons a rest ih =>
    intro s k h
    unfold lastAssign
    rw [ih (s + 1) k (fun j hj => h j (by omega)), if_neg (h s (le_refl s))]
    rfl

theorem opt_isSome_orElse {α : Type} (a b : Option α) :
    (a <|> b).isSome = (a.isSome || b.isSome) := by
  cases a <;> simp

theorem lastAssign_isSome_iff (ids : List (List Char)) :
    ∀ (amounts : List (List Char)) (s : Nat) (k : List Char),
      (lastAssign ids s amounts k).isSome
        ↔ ∃ j, j < amounts.length ∧ ids.get? (s + j) = some k := by
  intro amounts
  induction amounts with
  | nil => simp [lastAssign]
  | cons a rest ih =>
    intro s k
    unfold lastAssign
    rw [show ((lastAssign ids (s + 1) rest k <|>
        if ids.get? s = some k then some a else none).isSome = true)
      = ((lastAssign ids (s + 1) rest k).isSome = true ∨
        (if ids.get? s = some k then some a else none).isSome = true) by
        rw [opt_isSome_orElse]; simp]
    have hif : ((if ids.get? s = some k then some a else none).isSome = true)
        ↔ ids.get? s = some k := by
      split <;> simp_all
    rw [hif, ih (s + 1) k]
    constructor
    · rintro (⟨j, hj, hjk⟩ | hc)
      · refine ⟨j + 1, by simp only [List.length_cons]; omega, ?_⟩
        rw [show s + (j + 1) = s + 1 + j by omega]
        exact hjk
      · exact ⟨0, by simp, by simpa using hc⟩
    · rintro ⟨j, hj, hjk⟩
      rcases j with _ | j'
      · right; simpa using hjk
      · left
        refine ⟨j', by simp only [List.length_cons] at hj; omega, ?_⟩
        rw [show s + 1 + j' = s + (j' + 1) by omega]
        exact hjk

theorem lastAssign_last_occurrence (ids : List (List Char)) :
    ∀ (amounts : List (List Char)) (s m : Nat) (k : List Char),
      s ≤ m → m - s < amounts.length → ids.get? m = some k →
      (∀ j, m < j → ids.get? j ≠ some k) →
      lastAssign ids s amounts k = amounts.get? (m - s) := by
  intro amounts
  induction amounts with
  | nil => intro s m k _ h _ _; simp at h
  | cons a rest ih =>
    intro s m k hsm hm hk hlast
    unfold lastAssign
    by_cases hms : m = s
    · subst hms
      rw [lastAssign_eq_none ids rest (m + 1) k (fun j hj => hlast j (by omega))]
      simp only [Option.none_orElse]
      rw [if_pos hk]
      simp
    · have hlt : s < m := lt_of_le_of_ne hsm (fun h => hms h.symm)
      have hrec : lastAssign ids (s + 1) rest k = rest.get? (m - (s + 1)) :=
        ih (s + 1) m k (by omega) (by simp at hm; omega) hk hlast
      have hsome : (rest.get? (m - (s + 1))).isSome := by
        rw [List.get?_eq_getElem?]
        simp only [List.getElem?_eq_getElem (by simp at hm; omega : m - (s + 1) < rest.length)]
        rfl
      rw [hrec]
      cases hv : rest.get? (m - (s + 1)) with
      | none => rw [hv] at hsome; simp at hsome
      | some w =>
        have : (a :: rest).get? (m - s) = some w := by
          have hms1 : m - s = (m - (s + 1)) + 1 := by omega
          rw [hms1]
          simpa using hv
        rw [this]
        rfl

/-- The record built by the `parsePool` reduce from an arbitrary starting
record `acc` binds `k` to its last assignment among the walked indices,
falling back to `acc`'s binding. -/
theorem jsRecordGet_parsePoolSuppliesAux (ids : List (List Char)) :
    ∀ (amounts : List (List Char)) (i : Nat) (acc : List (List Char × List Char))
      (k : List Char),
      jsRecordGet (parsePoolSuppliesAux ids i amounts acc) k
        = (lastAssign ids i amounts k <|> jsRecordGet acc k) := by
  intro amounts
  induction amounts with
  | nil => intro i acc k; simp [parsePoolSuppliesAux, lastAssign]
  | cons a rest ih =>
    intro i acc k
    unfold parsePoolSuppliesAux lastAssign
    rw [ih]
    rw [opt_orElse_assoc]
    congr 1
    cases hi : ids.get? i with
    | none =>
      simp only
      rw [if_neg (show ¬ (none : Option (List Char)) = some k by simp)]
      simp
    | some id =>
      simp only
      rw [jsRecordGet_recAssign]
      by_cases hk : k = id
      · subst hk
        rw [if_pos rfl, if_pos rfl]
        rfl
      · rw [if_neg hk]
        rw [if_neg (show ¬ some id = some k from
          fun hh => hk (Option.some.inj hh).symm)]
        simp

end PoolSupplies

/-- C9: for a wire-format pool record (whose parallel `amounts` and
`token_account_ids` arrays have equal length), the `supplies` record built by
`parsePool` has exactly the asset identifier list as its key set, and a
repeated asset identifier is bound to the amount of its *last* occurrence
(later occurrences silently overwrite earlier ones). -/
theorem parsePool_supplies_spec (pool : PoolRPCView)
    (hlen : pool.amounts.length = pool.token_account_ids.length) :
    (∀ k, (∃ v, jsRecordGet (parsePool pool).supplies k = some v)
        ↔ k ∈ pool.token_account_ids)
    ∧ ∀ i k, pool.token_account_ids.get? i = some k →
        (∀ j, i < j → pool.token_account_ids.get? j ≠ some k) →
        jsRecordGet (parsePool pool).supplies k = pool.amounts.get? i := by
  have hbase : ∀ k, jsRecordGet (parsePool pool).supplies k
      = lastAssign pool.token_account_ids 0 pool.amounts k := by
    intro k
    show jsRecordGet (parsePoolSuppliesAux pool.token_account_ids 0 pool.amounts []) k = _
    rw [jsRecordGet_parsePoolSuppliesAux]
    cases lastAssign pool.token_account_ids 0 pool.amounts k <;> rfl
  constructor
  · intro k
    rw [hbase k]
    constructor
    · rintro ⟨v, hv⟩
      have : (lastAssign pool.token_account_ids 0 pool.amounts k).isSome := by
        rw [hv]; rfl
      rcases (lastAssign_isSome_iff pool.token_account_ids pool.amounts 0 k).mp this
        with ⟨j, hj, hjk⟩
      exact List.mem_iff_get?.mpr ⟨j, by simpa using hjk⟩
    · intro hk
      rcases List.mem_iff_get?.mp hk with ⟨j, hj⟩
      have hjlen : j < pool.token_account_ids.length := by
        by_contra hge
        rw [List.get?_eq_none.mpr (by omega)] at hj
        cases hj
      have : (lastAssign pool.token_account_ids 0 pool.amounts k).isSome :=
        (lastAssign_isSome_iff pool.token_account_ids pool.amounts 0 k).mpr
          ⟨j, by omega, by simpa using hj⟩
      cases hv : lastAssign pool.token_account_ids 0 pool.amounts k with
      | none => rw [hv] at this; simp at this
      | some w => exact ⟨w, rfl⟩
  · intro i k hk hlast
    rw [hbase k]
    have hilen : i < pool.token_account_ids.length := by
      by_contra hge
      rw [List.get?_eq_none.mpr (by omega)] at hk
      cases hk
    have := lastAssign_last_occurrence pool.token_account_ids pool.amounts 0 i k
      (by omega) (by omega) hk hlast
    simpa using this

/-- Witness for C9 at a record with a duplicated asset id:
`ids = [a, b, a]`, `amounts = [1, 2, 3]` — `a` is bound to `3` (last wins)
and `b` to `2`. -/
theorem parsePool_supplies_spec_witness :
    jsRecordGet (parsePool
      ⟨0, [['a'], ['b'], ['a']], [['1'], ['2'], ['3']], 30, ['0'], 0, ['0']⟩).supplies ['a']
      = some ['3'] :=
  ((parsePool_supplies_spec
      ⟨0, [['a'], ['b'], ['a']], [['1'], ['2'], ['3']], 30, ['0'], 0, ['0']⟩
      (by decide)).2 2 ['a'] (by decide)
    (fun j hj => by
      rw [List.get?_eq_none.mpr (by simp; omega)]
      simp)).trans (by decide)

section Bounded

variable {T R E : Type}

theorem extract_length {l : List T} {k : Nat} {t : T} {rest : List T}
    (h : extract l k = some (t, rest)) : rest.length + 1 = l.length := by
  cases l with
  | nil => cases h
  | cons a as =>
    unfold extract at h
    cases h
    rw [List.length_eraseIdx]
    rw [if_pos (Nat.mod_lt _ (by simp))]
    simp

theorem extract_ne_nil {l : List T} {k : Nat} (h : l ≠ []) :
    ∃ t rest, extract l k = some (t, rest) := by
  cases l with
  | nil => exact absurd rfl h
  | cons a as => exact ⟨_, _, rfl⟩

theorem settleMore_length_le (f : T → Except E R) :
    ∀ (ks : List Nat) (st : List T × List R),
      (settleMore f ks st).1.length ≤ st.1.length := by
  intro ks
  induction ks with
  | nil => intro st; exact le_refl _
  | cons k ks ih =>
    intro st
    rcases st with ⟨inF, acc⟩
    unfold settleMore
    cases he : extract inF k with
    | none => exact ih (inF, acc)
    | some pr =>
      rcases pr with ⟨t, rest⟩
      have hr : rest.length + 1 = inF.length := extract_length he
      cases hf : f t with
      | error e =>
        simp only [hf]
        have := ih (rest, acc)
        simp only at this
        omega
      | ok v =>
        simp only [hf]
        have := ih (rest, acc ++ [v])
        simp only at this
        omega

theorem raceStep_ok_length (f : T → Except E R) (entry : List Nat)
    {st st' : List T × List R} (hne : st.1 ≠ [])
    (h : raceStep f entry st = Except.ok st') : st'.1.length < st.1.length := by
  unfold raceStep at h
  rcases extract_ne_nil (k := entry.headD 0) hne with ⟨t, rest, he⟩
  rw [he] at h
  dsimp only at h
  have hr : rest.length + 1 = st.1.length := extract_length he
  cases hf : f t with
  | error e =>
    rw [hf] at h
    cases h
  | ok v =>
    rw [hf] at h
    dsimp only at h
    cases h
    have := settleMore_length_le f entry.tail (rest, st.2 ++ [v])
    simp only at this
    omega

theorem mapSemLoop_trace_le (f : T → Except E R) (N : Nat) (hN : 1 ≤ N) :
    ∀ (ts : List T) (sched : List (List Nat)) (inF : List T) (acc : List R)
      (tr : List Nat), inF.length + 1 ≤ N → (∀ c ∈ tr, c ≤ N) →
      ∀ c ∈ (mapSemLoop f N ts sched inF acc tr).2, c ≤ N := by
  intro ts
  induction ts with
  | nil => intro sched inF acc tr _ htr; exact htr
  | cons t ts ih =>
    intro sched inF acc tr hinv htr
    unfold mapSemLoop
    have hlen2 : (inF ++ [t]).length ≤ N := by simp; omega
    have htr2 : ∀ c ∈ tr ++ [(inF ++ [t]).length], c ≤ N := by
      intro c hc
      rcases List.mem_append.mp hc with hc | hc
      · exact htr c hc
      · rcases List.mem_singleton.mp hc with rfl
        exact hlen2
    by_cases hcap : N ≤ (inF ++ [t]).length
    · rw [if_pos hcap]
      cases hrs : raceStep f (sched.headD []) (inF ++ [t], acc) with
      | error e => exact htr2
      | ok st =>
        have hlt : st.1.length < (inF ++ [t]).length :=
          raceStep_ok_length f (sched.headD []) (by simp) hrs
        exact ih sched.tail st.1 st.2 _ (by omega) htr2
    · rw [if_neg hcap]
      exact ih sched (inF ++ [t]) acc _ (by simp at hcap ⊢; omega) htr2

end Bounded

/-- C1: the bounded-concurrency invariant.  For every item list, every
concurrency limit `N` with `1 ≤ N ≤ M`, every transform and every event-loop
schedule, the number of simultaneously unresolved transform calls observed
after each transform start (the only points where it increases) never
exceeds `N`. -/
theorem mapSemaphore_bounded_concurrency {T R E : Type} (f : T → Except E R)
    (N : Nat) (items : List T) (sched : List (List Nat))
    (h1 : 1 ≤ N) (h2 : N ≤ items.length) :
    ∀ c ∈ mapSemaphoreTrace f N items sched, c ≤ N :=
  mapSemLoop_trace_le f N h1 items sched [] [] [] (by simpa using h1)
    (fun c hc => absurd hc (List.not_mem_nil c))

/-- Witness for C1 at `M = 3`, `N = 2`: the observed in-flight counts stay
at most `2`. -/
theorem mapSemaphore_bounded_concurrency_witness :
    1 ≤ 2 ∧ 2 ≤ ([0, 1, 2] : List Nat).length
    ∧ ∀ c ∈ mapSemaphoreTrace (fun t : Nat => (Except.ok t : Except Unit Nat))
        2 [0, 1, 2] [[0], [1]], c ≤ 2 :=
  ⟨by decide, by decide,
    mapSemaphore_bounded_concurrency (fun t : Nat => (Except.ok t : Except Unit Nat))
      2 [0, 1, 2] [[0], [1]] (by decide) (by decide)⟩

section Completeness

variable {T R E : Type}

theorem extract_perm {l : List T} {k : Nat} {t : T} {rest : List T}
    (h : extract l k = some (t, rest)) : l.Perm (t :: rest) := by
  have main : ∀ (l : List T) (i : Nat) (d : T), i < l.length →
      l.Perm (l.getD i d :: l.eraseIdx i) := by
    intro l
    induction l with
    | nil => intro i d hi; simp at hi
    | cons a as ih =>
      intro i d hi
      cases i with
      | zero => simp
      | succ i =>
        have hi' : i < as.length := by simpa using hi
        have step := ih i d hi'
        simp only [List.getD_cons_succ, List.eraseIdx_cons_succ]
        exact (step.cons a).trans (List.Perm.swap _ a _)
  cases l with
  | nil => cases h
  | cons a as =>
    unfold extract at h
    cases h
    exact main (a :: as) _ a (Nat.mod_lt _ (by simp))

theorem settleMore_spec (f : T → Except E R) :
    ∀ (ks : List Nat) (inF : List T) (acc : List R),
      ∃ ds : List T,
        (settleMore f ks (inF, acc)).2
          = acc ++ ds.filterMap (fun t => (f t).toOption)
        ∧ (ds ++ (settleMore f ks (inF, acc)).1).Perm inF := by
  intro ks
  induction ks with
  | nil => intro inF acc; exact ⟨[], by simp [settleMore], by simp [settleMore]⟩
  | cons k ks ih =>
    intro inF acc
    unfold settleMore
    cases he : extract inF k with
    | none => exact ih inF acc
    | some pr =>
      rcases pr with ⟨t, rest⟩
      dsimp only
      have hperm : inF.Perm (t :: rest) := extract_perm he
      cases hf : f t with
      | error e =>
        simp only [hf]
        rcases ih rest acc with ⟨ds, hacc, hp⟩
        refine ⟨t :: ds, ?_, ?_⟩
        · rw [hacc]
          simp [List.filterMap_cons, Except.toOption, hf]
        · exact (hp.cons t).trans hperm.symm
      | ok v =>
        simp only [hf]
        rcases ih rest (acc ++ [v]) with ⟨ds, hacc, hp⟩
        refine ⟨t :: ds, ?_, ?_⟩
        · rw [hacc]
          simp [List.filterMap_cons, Except.toOption, hf]
        · exact (hp.cons t).trans hperm.symm

theorem raceStep_ok_spec (f : T → Except E R) (entry : List Nat)
    {inF : List T} {acc : List R} {st' : List T × List R}
    (h : raceStep f entry (inF, acc) = Except.ok st') :
    ∃ ds : List T,
      st'.2 = acc ++ ds.filterMap (fun t => (f t).toOption)
      ∧ (ds ++ st'.1).Perm inF := by
  unfold raceStep at h
  cases he : extract inF (entry.headD 0) with
  | none =>
    rw [he] at h
    cases h
    exact ⟨[], by simp, by simp⟩
  | some pr =>
    rcases pr with ⟨t, rest⟩
    rw [he] at h
    dsimp only at h
    have hperm : inF.Perm (t :: rest) := extract_perm he
    cases hf : f t with
    | error e => rw [hf] at h; cases h
    | ok v =>
      rw [hf] at h
      dsimp only at h
      cases h
      rcases settleMore_spec f entry.tail rest (acc ++ [v]) with ⟨ds, hacc, hp⟩
      refine ⟨t :: ds, ?_, ?_⟩
      · rw [hacc]
        simp [List.filterMap_cons, Except.toOption, hf]
      · exact (hp.cons t).trans hperm.symm

theorem mapSemLoop_ok_spec (f : T → Except E R) (N : Nat) :
    ∀ (ts : List T) (sched : List (List Nat)) (inF : List T) (acc : List R)
      (tr : List Nat) (inF' : List T) (acc' : List R),
      (mapSemLoop f N ts sched inF acc tr).1 = Except.ok (inF', acc') →
      ∃ ds : List T,
        acc' = acc ++ ds.filterMap (fun t => (f t).toOption)
        ∧ (ds ++ inF').Perm (inF ++ ts) := by
  intro ts
  induction ts with
  | nil =>
    intro sched inF acc tr inF' acc' h
    unfold mapSemLoop at h
    cases h
    exact ⟨[], by simp, by simp⟩
  | cons t ts ih =>
    intro sched inF acc tr inF' acc' h
    unfold mapSemLoop at h
    by_cases hcap : N ≤ (inF ++ [t]).length
    · rw [if_pos hcap] at h
      cases hrs : raceStep f (sched.headD []) (inF ++ [t], acc) with
      | error e => rw [hrs] at h; cases h
      | ok st =>
        rw [hrs] at h
        dsimp only at h
        rcases raceStep_ok_spec f (sched.headD []) hrs with ⟨ds₁, hacc₁, hp₁⟩
        rcases ih sched.tail st.1 st.2 _ inF' acc' h with ⟨ds₂, hacc₂, hp₂⟩
        refine ⟨ds₁ ++ ds₂, ?_, ?_⟩
        · rw [hacc₂, hacc₁, List.filterMap_append, List.append_assoc]
        · rw [List.append_assoc]
          refine (hp₂.append_left ds₁).trans ?_
          rw [← List.append_assoc]
          refine (hp₁.append_right ts).trans ?_
          rw [List.append_assoc, List.singleton_append]
    · rw [if_neg hcap] at h
      rcases ih sched (inF ++ [t]) acc _ inF' acc' h with ⟨ds, hacc, hp⟩
      refine ⟨ds, hacc, ?_⟩
      refine hp.trans ?_
      rw [List.append_assoc, List.singleton_append]

theorem extract_eq_none {l : List T} {k : Nat} (h : extract l k = none) : l = [] := by
  cases l with
  | nil => rfl
  | cons a as => cases h

theorem allSettle_ok_spec (f : T → Except E R) :
    ∀ (fuel : Nat) (picks : List Nat) (inF : List T) (acc rs : List R),
      inF.length ≤ fuel → allSettle f fuel picks inF acc = Except.ok rs →
      ∃ ds : List T,
        rs = acc ++ ds.filterMap (fun t => (f t).toOption) ∧ ds.Perm inF := by
  intro fuel
  induction fuel with
  | zero =>
    intro picks inF acc rs hlen h
    have : inF = [] := List.length_eq_zero.mp (Nat.le_zero.mp hlen)
    subst this
    unfold allSettle at h
    cases h
    exact ⟨[], by simp, by simp⟩
  | succ fuel ih =>
    intro picks inF acc rs hlen h
    unfold allSettle at h
    cases he : extract inF (picks.headD 0) with
    | none =>
      rw [he] at h
      cases h
      rw [extract_eq_none he]
      exact ⟨[], by simp, by simp⟩
    | some pr =>
      rcases pr with ⟨t, rest⟩
      rw [he] at h
      dsimp only at h
      have hperm : inF.Perm (t :: rest) := extract_perm he
      have hlen' : rest.length ≤ fuel := by
        have := extract_length he
        omega
      cases hf : f t with
      | error e => rw [hf] at h; cases h
      | ok v =>
        rw [hf] at h
        dsimp only at h
        rcases ih picks.tail rest (acc ++ [v]) rs hlen' h with ⟨ds, hacc, hp⟩
        refine ⟨t :: ds, ?_, ?_⟩
        · rw [hacc]
          simp [List.filterMap_cons, Except.toOption, hf]
        · exact (hp.cons t).trans hperm.symm

/-- If a `mapSemaphore` run fulfils, its result list is a permutation of the
fulfilment values of the items (each item settles exactly once; rejected
items contribute nothing). -/
theorem mapSemaphore_ok_filterMap (f : T → Except E R) (N : Nat) (items : List T)
    (sched : List (List Nat)) (fp : List Nat) {rs : List R}
    (h : mapSemaphore f N items sched fp = Except.ok rs) :
    rs.Perm (items.filterMap (fun t => (f t).toOption)) := by
  unfold mapSemaphore at h
  cases hl : (mapSemLoop f N items sched [] [] []).1 with
  | error e => rw [hl] at h; cases h
  | ok p =>
    rcases p with ⟨inF, acc⟩
    rw [hl] at h
    dsimp only at h
    rcases mapSemLoop_ok_spec f N items sched [] [] [] inF acc hl with ⟨ds₁, hacc₁, hp₁⟩
    rcases allSettle_ok_spec f inF.length fp inF acc rs (le_refl _) h with ⟨ds₂, hrs, hp₂⟩
    rw [hrs, hacc₁]
    simp only [List.nil_append] at hp₁ ⊢
    rw [← List.filterMap_append]
    exact ((hp₂.append_left ds₁).filterMap _).trans (hp₁.filterMap _)

theorem raceStep_allOk (f' : T → R) (entry : List Nat) (st : List T × List R) :
    ∃ st', raceStep (fun t => (Except.ok (f' t) : Except E R)) entry st = Except.ok st' := by
  unfold raceStep
  cases he : extract st.1 (entry.headD 0) with
  | none => exact ⟨st, rfl⟩
  | some pr => rcases pr with ⟨t, rest⟩; exact ⟨_, rfl⟩

theorem mapSemLoop_allOk (f' : T → R) (N : Nat) :
    ∀ (ts : List T) (sched : List (List Nat)) (inF : List T) (acc : List R)
      (tr : List Nat),
      ∃ p, (mapSemLoop (fun t => (Except.ok (f' t) : Except E R)) N ts sched inF acc tr).1
        = Except.ok p := by
  intro ts
  induction ts with
  | nil => intro sched inF acc tr; exact ⟨(inF, acc), rfl⟩
  | cons t ts ih =>
    intro sched inF acc tr
    unfold mapSemLoop
    by_cases hcap : N ≤ (inF ++ [t]).length
    · rw [if_pos hcap]
      rcases raceStep_allOk (E := E) f' (sched.headD []) (inF ++ [t], acc) with ⟨st', hst⟩
      rw [hst]
      exact ih sched.tail st'.1 st'.2 _
    · rw [if_neg hcap]
      exact ih sched (inF ++ [t]) acc _

theorem allSettle_allOk (f' : T → R) :
    ∀ (fuel : Nat) (picks : List Nat) (inF : List T) (acc : List R),
      ∃ rs, allSettle (fun t => (Except.ok (f' t) : Except E R)) fuel picks inF acc
        = Except.ok rs := by
  intro fuel
  induction fuel with
  | zero => intro picks inF acc; exact ⟨acc, rfl⟩
  | succ fuel ih =>
    intro picks inF acc
    unfold allSettle
    cases he : extract inF (picks.headD 0) with
    | none => exact ⟨acc, rfl⟩
    | some pr =>
      rcases pr with ⟨t, rest⟩
      exact ih picks.tail rest (acc ++ [f' t])

theorem mapSemaphore_allOk (f' : T → R) (N : Nat) (items : List T)
    (sched : List (List Nat)) (fp : List Nat) :
    ∃ rs, mapSemaphore (fun t => (Except.ok (f' t) : Except E R)) N items sched fp
      = Except.ok rs := by
  unfold mapSemaphore
  rcases mapSemLoop_allOk (E := E) f' N items sched [] [] [] with ⟨p, hp⟩
  rw [hp]
  rcases p with ⟨inF, acc⟩
  exact allSettle_allOk f' inF.length fp inF acc

end Completeness

/-- C3: for a never-rejecting transform, any concurrency limit and any
event-loop schedule, `mapSemaphore` fulfils with a result list that is a
permutation of the transform results of the input (so of equal length, each
transform result exactly once), collected in settlement order; the second
conjunct exhibits a schedule on which that settlement order differs from the
input order (`[1, 0]` for input `[0, 1]`). -/
theorem mapSemaphore_completeness {T R : Type} (f' : T → R) (N : Nat)
    (items : List T) (sched : List (List Nat)) (fp : List Nat) (hN : 1 ≤ N) :
    (∃ rs, mapSemaphore (fun t => (Except.ok (f' t) : Except Unit R)) N items sched fp
        = Except.ok rs
      ∧ rs.Perm (items.map f') ∧ rs.length = items.length)
    ∧ mapSemaphore (fun t : Nat => (Except.ok t : Except Unit Nat)) 2 [0, 1] [[1]] []
      = Except.ok [1, 0] := by
  constructor
  · rcases mapSemaphore_allOk (E := Unit) f' N items sched fp with ⟨rs, hrs⟩
    have hperm := mapSemaphore_ok_filterMap _ N items sched fp hrs
    have hmap : items.filterMap
        (fun t => ((Except.ok (f' t) : Except Unit R)).toOption) = items.map f' := by
      exact List.filterMap_eq_map_iff_forall_eq_some.mpr fun x _ => rfl
    rw [hmap] at hperm
    exact ⟨rs, hrs, hperm, by rw [hperm.length_eq, List.length_map]⟩
  · rfl

/-- Witness for C3 at `items = [10, 20, 30]`, `N = 1`, doubling transform. -/
theorem mapSemaphore_completeness_witness :
    1 ≤ 1
    ∧ (∃ rs, mapSemaphore (fun t => (Except.ok (2 * t) : Except Unit Nat))
          1 [10, 20, 30] [[0], [0], [0]] []
        = Except.ok rs
      ∧ rs.Perm ([10, 20, 30].map (fun t => 2 * t))
      ∧ rs.length = ([10, 20, 30] : List Nat).length) :=
  ⟨by decide,
    (mapSemaphore_completeness (fun t : Nat => 2 * t) 1 [10, 20, 30]
      [[0], [0], [0]] [] (by decide)).1⟩

end NearMcp
